import Mathlib

/-!
Shallow embedding of the usage-analysis engine of terraform-cleaner
(file terraform/main.go).

Module text is modelled as a list of characters (Go strings are scanned
rune by rune by the patterns in question, which are ASCII-only, so one
Go rune corresponds to one Char).  The three regular-expression shapes
that countPattern is invoked with are embedded as fixed-length match
predicates on suffixes of the text, and FindAllStringIndex's
leftmost, non-overlapping scan is embedded as a greedy left-to-right
scan that skips the length of a match after each hit.
-/

namespace TfCleaner

/-- Go regexp word class: a character matched by the regexp class w,
namely [0-9A-Za-z_].  The escape W used by the variable and local
patterns in processUsage matches exactly one character outside this
class. -/
def isWordChar (c : Char) : Bool := c.isAlphanum || c = '_'

/-- Matching a plain literal pattern (regex with every metacharacter
escaped) against the start of a suffix of the text: used for the
module pattern, where main.go writes the dot escaped and adds no
trailing boundary. -/
def litMatch (lit : List Char) (s : List Char) : Bool := lit.isPrefixOf s

/-- Matching a literal followed by a single non-word character: the shape
of the variable and local patterns in processUsage.  The match consumes
the boundary character, so it needs one character after the literal. -/
def boundedMatch (lit : List Char) (s : List Char) : Bool :=
  lit.isPrefixOf s &&
    (match s.drop lit.length with
     | [] => false
     | c :: _ => !(isWordChar c))

/-- One pattern character of a data key matched against one text
character.  The data key is compiled as a regex without escaping, so its
dots are the regex metacharacter that matches any character except a
newline; every other character of the key (block labels are ordinary
identifier characters) matches literally. -/
def dotCharMatch (p c : Char) : Bool := if p = '.' then c != '\n' else p == c

/-- Matching a data key (with its dots as wildcards) against the start of
a suffix of the text. -/
def dotMatch : List Char → List Char → Bool
  | [], _ => true
  | _ :: _, [] => false
  | p :: ps, c :: cs => dotCharMatch p c && dotMatch ps cs

/-- Greedy scan embedding Go's FindAllStringIndex for a fixed-length
pattern: the first argument of the scan state is the number of
characters still to be skipped because they belong to the previous
match (a match at a position makes the scan resume after its end).
The predicate p decides whether the pattern matches at the start of the
given suffix, and L is the (fixed) length of every match. -/
def countFixedAux (p : List Char → Bool) (L : Nat) : Nat → List Char → Nat
  | _, [] => 0
  | k + 1, _ :: rest => countFixedAux p L k rest
  | 0, c :: rest =>
    if p (c :: rest) then 1 + countFixedAux p L (L - 1) rest
    else countFixedAux p L 0 rest

/-- Number of leftmost, non-overlapping matches of a fixed-length pattern
in the text: the embedding of countPattern (main.go lines 146-151) at the
pattern shapes the program uses. -/
def countFixed (p : List Char → Bool) (L : Nat) (t : List Char) : Nat :=
  countFixedAux p L 0 t

/-- All positions of the text at which the pattern matches (overlapping
occurrences included): the plain notion of occurrence used by the
specification's sentences about reference counts. -/
def matchPositions (p : List Char → Bool) : List Char → List Nat
  | [] => []
  | c :: rest =>
    (if p (c :: rest) then [0] else []) ++ (matchPositions p rest).map (· + 1)

/-- The composite key of a data block, data.type.name
(main.go line 124). -/
def dataKey (dtype name : String) : String := "data." ++ dtype ++ "." ++ name

/-- Count of matches of a data key compiled as a regex: the key's dots
are wildcards. -/
def countDataKey (key : String) (content : List Char) : Nat :=
  countFixed (dotMatch key.toList) key.toList.length content

/-- Count stored for a data block: the key itself is compiled as the
regex (main.go line 125). -/
def countData (dtype name : String) (content : List Char) : Nat :=
  countDataKey (dataKey dtype name) content

/-- The literal of the module reference pattern (main.go line 129). -/
def modulePat (name : String) : List Char := ("module." ++ name).toList

/-- Count stored for a module block: escaped dot, no trailing boundary. -/
def countModule (name : String) (content : List Char) : Nat :=
  countFixed (litMatch (modulePat name)) (modulePat name).length content

/-- The literal of the variable reference pattern (main.go line 133). -/
def varPat (name : String) : List Char := ("var." ++ name).toList

/-- Count stored for a variable: the pattern carries a trailing non-word
boundary, which consumes one character. -/
def countVar (name : String) (content : List Char) : Nat :=
  countFixed (boundedMatch (varPat name)) ((varPat name).length + 1) content

/-- The literal of the local reference pattern (main.go line 137). -/
def localPat (name : String) : List Char := ("local." ++ name).toList

/-- Count stored for a local, same boundary discipline as variables. -/
def countLocal (name : String) (content : List Char) : Nat :=
  countFixed (boundedMatch (localPat name)) ((localPat name).length + 1) content

/-- A label or attribute name made of ordinary identifier characters:
for such names the interpolation of the name into the regex in
processUsage introduces no regex metacharacters, which is the scope in
which this embedding is faithful to the Go regexes. -/
def wordStr (s : String) : Bool := s.toList.all isWordChar

/-- A parsed top-level HCL block as consumed by processUsage: its type
keyword, its labels in order, and (for locals blocks) the names of its
body attributes.  Go iterates the attribute map in unspecified order;
the list fixes one order, and every property stated below is
order-independent because distinct attribute names update distinct map
keys with values that depend only on the text. -/
structure Block where
  btype : String
  labels : List String
  attrs : List String
deriving DecidableEq

/-- Labels()[0] of a block. -/
def label0 (b : Block) : String := b.labels.getD 0 ""

/-- Labels()[1] of a block. -/
def label1 (b : Block) : String := b.labels.getD 1 ""

/-- The ModuleUsage record (main.go lines 16-23).  The Go maps are
embedded as association lists whose update replaces the entry of an
existing key, mirroring Go map assignment; the file handle is dropped
because the searched text is passed explicitly. -/
structure ModuleUsage where
  Path : String
  Variables : List (String × Nat)
  Locals : List (String × Nat)
  Modules : List (String × Nat)
  DataBlocks : List (String × Nat)

/-- Go map assignment m[k] = v: replace the entry of k if present,
otherwise add one. -/
def mapUpsert (m : List (String × Nat)) (k : String) (v : Nat) :
    List (String × Nat) :=
  if m.any (fun p => p.1 == k) then
    m.map (fun p => if p.1 == k then (k, v) else p)
  else m ++ [(k, v)]

/-- Go map read m[k] (with presence). -/
def lookupMap (m : List (String × Nat)) (k : String) : Option Nat :=
  match m.find? (fun p => p.1 == k) with
  | some p => some p.2
  | none => none

/-- Number of entries of the association list carrying the key k. -/
def keyCount (m : List (String × Nat)) (k : String) : Nat :=
  m.countP (fun p => p.1 == k)

/-- Symbol extraction for one block (main.go lines 119-141).  The Go code
runs three consecutive if statements on the block type; since they test
the same string against distinct literals, at most one of them fires and
the sequence is equivalent to this case analysis. -/
def processBlock (text : List Char) (m : ModuleUsage) (b : Block) :
    ModuleUsage :=
  match b.btype with
  | "data" =>
    { m with DataBlocks := (mapUpsert m.DataBlocks (dataKey (label0 b) (label1 b))
        (countData (label0 b) (label1 b) text)) }
  | "module" =>
    { m with Modules := (mapUpsert m.Modules (label0 b)
        (countModule (label0 b) text)) }
  | "variable" =>
    { m with Variables := (mapUpsert m.Variables (label0 b)
        (countVar (label0 b) text)) }
  | "locals" =>
    { m with Locals := (b.attrs.foldl
        (fun acc a => mapUpsert acc a (countLocal a text)) m.Locals) }
  | _ => m

/-- The empty report NewModuleUsage starts from (main.go lines 26-32). -/
def emptyUsage (path : String) : ModuleUsage :=
  { Path := path, Variables := [], Locals := [], Modules := [], DataBlocks := [] }

/-- processUsage (main.go lines 116-144): fold symbol extraction over the
parsed blocks in order, scanning the full concatenated text. -/
def processUsage (bs : List Block) (text : List Char) : ModuleUsage :=
  bs.foldl (processBlock text) (emptyUsage "")

/-- The display axis (main.go line 161): a bare string in Go. -/
abbrev DisplayType := String

/-- The recognized axis constants (main.go lines 163-167). -/
def All : DisplayType := "all"

/-- Axis selecting the variables mapping. -/
def Variables : DisplayType := "variables"

/-- Axis selecting the locals mapping. -/
def Locals : DisplayType := "locals"

/-- filterUnusedOnly (main.go lines 169-176): delete, from the very map
that was passed in, every entry whose count is positive, and return that
same map.  The embedding keeps exactly the entries whose deletion
condition is false. -/
def filterUnusedOnly (items : List (String × Nat)) : List (String × Nat) :=
  items.filter (fun p => if p.2 > 0 then false else true)

/-- Result of a Display call: besides printing, the call can mutate the
report through the map references it filters, and can fail; post is the
report as observable after the call and err its returned error. -/
structure DisplayResult where
  post : ModuleUsage
  err : Option String

/-- Display (main.go lines 200-255), printing elided.  Go binds the local
names to the report's own maps (reference aliasing), so filtering them in
the unusedOnly case narrows the report itself; the default branch of the
switch returns an error before anything is filtered.  The case order is
that of the Go switch. -/
def Display (m : ModuleUsage) (dType : DisplayType) (unusedOnly : Bool) :
    DisplayResult :=
  if dType = Locals then
    if unusedOnly then
      { post := { m with Locals := filterUnusedOnly m.Locals }, err := none }
    else { post := m, err := none }
  else if dType = Variables then
    if unusedOnly then
      { post := { m with Variables := filterUnusedOnly m.Variables }, err := none }
    else { post := m, err := none }
  else if dType = All then
    if unusedOnly then
      { post := { m with Locals := filterUnusedOnly m.Locals,
                         Variables := filterUnusedOnly m.Variables }, err := none }
    else { post := m, err := none }
  else { post := m, err := some (dType ++ " is an invalid display Type") }

/-- DisplayUnusedSimple (main.go lines 178-198), printing elided: it
filters all three maps of the report in place, unconditionally; its two
arguments are ignored by the filtering and its error is always nil, so
the observable effect is the narrowed report. -/
def DisplayUnusedSimple (m : ModuleUsage) (_dType : DisplayType)
    (_unusedOnly : Bool) : ModuleUsage :=
  { m with Locals := filterUnusedOnly m.Locals,
           Variables := filterUnusedOnly m.Variables,
           Modules := filterUnusedOnly m.Modules }

/-- Worker of filepath.Ext: walk the name from its end (the argument is
the reversed name); stop empty at a path separator, return the suffix
from the first dot found. -/
def extFromRev : List Char → List Char → List Char
  | _, [] => []
  | acc, c :: rest =>
    if c = '/' then []
    else if c = '.' then '.' :: acc
    else extFromRev (c :: acc) rest

/-- Go's filepath.Ext on a file name: the suffix beginning at the final
dot of the last path element, empty when there is none. -/
def filepathExt (name : String) : List Char := extFromRev [] name.toList.reverse

/-- The loader's file-extension test, filepath.Ext(name) == ".tf"
(main.go line 83). -/
def isTf (f : String × List Char) : Bool := filepathExt f.1 == ".tf".toList

/-- LoadTfModule (main.go lines 75-93) on the success path: the directory
listing is given as the name-ordered list of (file name, content) pairs
that os.ReadDir produces, and for every .tf file the Go loop first
appends one newline byte and then the file's bytes. -/
def LoadTfModule (files : List (String × List Char)) : List Char :=
  files.foldl (fun out f => if isTf f then out ++ '\n' :: f.2 else out) []

/-- The loader behaviour as the specification sentence words it, for
comparison with LoadTfModule: the .tf contents joined with a single
newline between consecutive files and no leading or trailing
separator. -/
def loadTfModuleClaimed (files : List (String × List Char)) : List Char :=
  List.intercalate ['\n'] ((files.filter isTf).map (fun f => f.2))

/-- The token types of hclsyntax that parseModuleSource inspects. -/
inductive TokenType where
  | oQuote
  | quotedLit
  | cQuote
  | other
deriving DecidableEq

/-- One token of the attribute expression, with its bytes. -/
structure HclToken where
  ttype : TokenType
  bytes : String

/-- The guard of parseModuleSource (main.go lines 99-102): exactly three
tokens forming a single quoted string literal. -/
def isQuotedLitShape : List HclToken → Bool
  | [t0, t1, t2] =>
    decide (t0.ttype = TokenType.oQuote) && decide (t1.ttype = TokenType.quotedLit)
      && decide (t2.ttype = TokenType.cQuote)
  | _ => false

/-- The literal that the version regex requires between the two capture
groups. -/
def qrefv : List Char := "?ref=v".toList

/-- Whether a suffix starts with a decimal digit: the regex needs at
least one digit right after qrefv for a match to exist. -/
def isDigitOpt : List Char → Bool
  | c :: _ => c.isDigit
  | [] => false

/-- Candidate positions of the mandatory part of the version regex: every
index at which the literal ?ref=v occurs followed by a digit. -/
def qCandidates (t : List Char) : List Nat :=
  (List.range t.length).filter
    (fun q => qrefv.isPrefixOf (t.drop q) && isDigitOpt (t.drop (q + 6)))

/-- Number of characters between position q and the closest newline (or
the start of the text) before it: the room available to the leading
greedy group, whose dot cannot cross a newline. -/
def sinceLineStart (t : List Char) (q : Nat) : Nat :=
  ((t.take q).reverse.takeWhile (fun c => c != '\n')).length

/-- Candidate positions that some nonempty leading group can reach: the
group needs at least one character on the same line before the
literal. -/
def validStarts (t : List Char) : List Nat :=
  (qCandidates t).filter (fun q => sinceLineStart t q != 0)

/-- Greedy consumption of the middle group of the version regex, zero or
more repetitions of a dot followed by one or more digits; returns the
consumed characters and the rest.  The fuel only bounds the number of
repetitions: each repetition consumes at least two characters, so fuel
equal to the length of the input never truncates. -/
def dotNumRepsAux : Nat → List Char → List Char × List Char
  | 0, s => ([], s)
  | fuel + 1, s =>
    match s with
    | '.' :: rest =>
      (match rest.takeWhile Char.isDigit with
       | [] => ([], s)
       | d :: ds =>
         let pr := dotNumRepsAux fuel (rest.dropWhile Char.isDigit)
         ('.' :: ((d :: ds) ++ pr.1), pr.2))
    | _ => ([], s)

/-- Greedy consumption of the dotted numeric repetitions, fuelled by the
input length. -/
def dotNumReps (s : List Char) : List Char × List Char :=
  dotNumRepsAux s.length s

/-- Greedy consumption of the pre-release group of the version regex,
zero or more repetitions of a dash followed by any characters: one
repetition swallows the rest of the line, after which no further dash can
match, so at most one repetition is taken. -/
def dashTail : List Char → List Char
  | '-' :: rest => '-' :: rest.takeWhile (fun c => c != '\n')
  | _ => []

/-- FindStringSubmatch of the version regex of parseModuleSource
(main.go line 97) on the source string: the match Go returns starts
leftmost, extends its first greedy group as far as possible (hence uses
the last candidate position on the starting line), and then matches the
version group greedily.  Returns the two capture groups, or none when the
regex has no match. -/
def findRefSubmatch (t : List Char) : Option (List Char × List Char) :=
  match validStarts t with
  | [] => none
  | q0 :: qs =>
    let s0 := q0 - sinceLineStart t q0
    let qstar := (q0 :: qs).foldl
      (fun a q => if q - sinceLineStart t q = s0 then max a q else a) q0
    let name := (t.take qstar).drop s0
    match (t.drop (qstar + 6)).takeWhile Char.isDigit with
    | [] => none
    | d :: ds =>
      let pr := dotNumReps ((t.drop (qstar + 6)).dropWhile Char.isDigit)
      some (name, (d :: ds) ++ pr.1 ++ dashTail pr.2)

/-- parseModuleSource (main.go lines 96-114): when the attribute value is
a single quoted string literal, split it into the bare source and the
version tag after ?ref=v; a literal without a version yields the full
string and an empty version, and any other token shape yields two empty
strings. -/
def parseModuleSource (tokens : List HclToken) : String × String :=
  match tokens with
  | [t0, t1, t2] =>
    if t0.ttype = TokenType.oQuote ∧ t1.ttype = TokenType.quotedLit ∧
        t2.ttype = TokenType.cQuote then
      match findRefSubmatch t1.bytes.toList with
      | none => (t1.bytes, "")
      | some pr => (String.mk pr.1, String.mk pr.2)
    else ("", "")
  | _ => ("", "")


/-! ### Lemmas about the greedy scan -/

/-- Characterization of matchPositions: its members are exactly the
positions of the text at which the pattern matches. -/


theorem mem_matchPositions (p : List Char → Bool) :
    ∀ (t : List Char) (i : Nat),
      i ∈ matchPositions p t ↔ (p (t.drop i) = true ∧ i < t.length) := by
  intro t
  induction t with
  | nil => intro i; simp [matchPositions]
  | cons c rest ih =>
    intro i
    cases i with
    | zero =>
      simp only [matchPositions, List.mem_append, List.mem_map, List.drop_zero]
      constructor
      · rintro (h0 | ⟨j, _, hj⟩)
        · constructor
          · by_cases hp : p (c :: rest) = true
            · exact hp
            · simp [hp] at h0
          · simp
        · omega
      · rintro ⟨hp, _⟩
        left; simp [hp]
    | succ i =>
      simp only [matchPositions, List.mem_append, List.mem_map, List.drop_succ_cons,
        List.length_cons]
      constructor
      · rintro (h0 | ⟨j, hj, hji⟩)
        · by_cases hp : p (c :: rest) = true <;> simp [hp] at h0
        · have : j = i := by omega
          subst this
          have := (ih j).mp hj
          exact ⟨this.1, by omega⟩
      · rintro ⟨hp, hlt⟩
        right
        exact ⟨i, (ih i).mpr ⟨hp, by omega⟩, rfl⟩

theorem matchPositions_drop (p : List Char → Bool) :
    ∀ (k : Nat) (t : List Char), (∀ i ∈ matchPositions p t, k ≤ i) →
      matchPositions p (t.drop k) = (matchPositions p t).map (· - k) := by
  intro k
  induction k with
  | zero =>
    intro t _
    simp only [List.drop_zero, Nat.sub_zero]
    have : (fun i : Nat => i - 0) = id := by funext i; simp
    simp
  | succ k ih =>
    intro t hall
    cases t with
    | nil => simp [matchPositions]
    | cons c rest =>
      have hp : p (c :: rest) = false := by
        by_cases hp : p (c :: rest) = true
        · exfalso
          have h0 : (0 : Nat) ∈ matchPositions p (c :: rest) := by
            simp [matchPositions, hp]
          have := hall 0 h0
          omega
        · simpa using hp
      have hmp : matchPositions p (c :: rest) = (matchPositions p rest).map (· + 1) := by
        simp [matchPositions, hp]
      rw [hmp] at hall ⊢
      have hall2 : ∀ i ∈ matchPositions p rest, k ≤ i := by
        intro i hi
        have := hall (i + 1) (List.mem_map_of_mem _ hi)
        omega
      have hd : (c :: rest).drop (k + 1) = rest.drop k := by simp
      rw [hd, ih rest hall2, List.map_map]
      congr 1
      funext x
      simp

theorem countFixedAux_skip (p : List Char → Bool) (L : Nat) :
    ∀ (t : List Char) (k : Nat), countFixedAux p L k t = countFixedAux p L 0 (t.drop k) := by
  intro t
  induction t with
  | nil => intro k; simp [countFixedAux]
  | cons c rest ih =>
    intro k
    cases k with
    | zero => simp
    | succ k =>
      show countFixedAux p L k rest = _
      rw [ih k]
      simp



theorem countFixed_eq_positions (p : List Char → Bool) (L : Nat) :
    ∀ (n : Nat) (t : List Char), t.length ≤ n →
      (matchPositions p t).Pairwise (fun i j => i + L ≤ j) →
      countFixed p L t = (matchPositions p t).length := by
  intro n
  induction n with
  | zero =>
    intro t ht _
    have : t = [] := List.length_eq_zero.mp (Nat.le_zero.mp ht)
    subst this
    simp [countFixed, countFixedAux, matchPositions]
  | succ n ih =>
    intro t ht hsep
    cases t with
    | nil => simp [countFixed, countFixedAux, matchPositions]
    | cons c rest =>
      by_cases hp : p (c :: rest) = true
      · have hmp : matchPositions p (c :: rest) =
            0 :: (matchPositions p rest).map (· + 1) := by
          simp [matchPositions, hp]
        rw [hmp] at hsep
        obtain ⟨hhead, htail⟩ := List.pairwise_cons.mp hsep
        have hge : ∀ i ∈ matchPositions p rest, L - 1 ≤ i := by
          intro i hi
          have := hhead (i + 1) (List.mem_map_of_mem _ hi)
          omega
        have hshift : matchPositions p (rest.drop (L - 1)) =
            (matchPositions p rest).map (· - (L - 1)) :=
          matchPositions_drop p (L - 1) rest hge
        have hcf : countFixed p L (c :: rest) =
            1 + countFixed p L (rest.drop (L - 1)) := by
          show countFixedAux p L 0 (c :: rest) = _
          rw [countFixedAux]
          rw [if_pos hp, countFixedAux_skip]
          rfl
        have htail2 : (matchPositions p rest).Pairwise (fun a b => a + L ≤ b) := by
          have h1 := List.pairwise_map.mp htail
          exact h1.imp (by intro a b h; omega)
        have hpw2 : (matchPositions p (rest.drop (L - 1))).Pairwise
            (fun i j => i + L ≤ j) := by
          rw [hshift, List.pairwise_map]
          refine htail2.imp_of_mem ?_
          intro a b ha hb h
          have h1 := hge a ha
          have h2 := hge b hb
          omega
        have hlen2 : (rest.drop (L - 1)).length ≤ n := by
          have h1 : rest.length ≤ n := by
            simp only [List.length_cons] at ht
            omega
          have h2 : (rest.drop (L - 1)).length ≤ rest.length := by
            simp [List.length_drop]
          omega
        have hrec := ih (rest.drop (L - 1)) hlen2 hpw2
        rw [hcf, hrec, hshift, hmp]
        simp
        omega
      · have hmp : matchPositions p (c :: rest) =
            (matchPositions p rest).map (· + 1) := by
          simp [matchPositions, hp]
        rw [hmp] at hsep
        have hcf : countFixed p L (c :: rest) = countFixed p L rest := by
          show countFixedAux p L 0 (c :: rest) = _
          rw [countFixedAux, if_neg hp]
          rfl
        have htail2 : (matchPositions p rest).Pairwise (fun a b => a + L ≤ b) := by
          have h1 := List.pairwise_map.mp hsep
          exact h1.imp (by intro a b h; omega)
        have h1 : rest.length ≤ n := by
          simp only [List.length_cons] at ht
          omega
        rw [hcf, ih rest h1 htail2, hmp]
        simp

/-! ### Lemmas about the association-list map operations -/

theorem lookupMap_map_replace (k : String) (v : Nat) :
    ∀ m : List (String × Nat), m.any (fun p => p.1 == k) = true →
      lookupMap (m.map (fun p => if p.1 == k then (k, v) else p)) k = some v := by
  intro m
  induction m with
  | nil => intro h; simp at h
  | cons a as ih =>
    intro h
    by_cases ha : (a.1 == k) = true
    · simp [lookupMap, List.find?, ha]
    · have h2 : as.any (fun p => p.1 == k) = true := by
        simpa [List.any_cons, ha] using h
      have := ih h2
      simpa [lookupMap, List.find?, ha] using this

theorem lookupMap_append_single (k : String) (v : Nat) :
    ∀ m : List (String × Nat), m.any (fun p => p.1 == k) = false →
      lookupMap (m ++ [(k, v)]) k = some v := by
  intro m
  induction m with
  | nil => intro _; simp [lookupMap, List.find?]
  | cons a as ih =>
    intro h
    have ha : (a.1 == k) = false := by
      by_cases hx : (a.1 == k) = true
      · simp [List.any_cons, hx] at h
      · simpa using hx
    have h2 : as.any (fun p => p.1 == k) = false := by
      simpa [List.any_cons, ha] using h
    have := ih h2
    simpa [lookupMap, List.find?, ha] using this

theorem lookupMap_upsert_self (m : List (String × Nat)) (k : String) (v : Nat) :
    lookupMap (mapUpsert m k v) k = some v := by
  unfold mapUpsert
  by_cases h : m.any (fun p => p.1 == k) = true
  · rw [if_pos h]
    exact lookupMap_map_replace k v m h
  · rw [if_neg h]
    exact lookupMap_append_single k v m (Bool.eq_false_iff.mpr h)

theorem lookupMap_map_replace_ne (k k' : String) (v : Nat) (h : k' ≠ k) :
    ∀ m : List (String × Nat),
      lookupMap (m.map (fun p => if p.1 == k then (k, v) else p)) k' =
        lookupMap m k' := by
  have hkk : (k == k') = false := beq_eq_false_iff_ne.mpr (fun hx => h hx.symm)
  intro m
  induction m with
  | nil => rfl
  | cons a as ih =>
    by_cases ha : (a.1 == k) = true
    · have haeq : a.1 = k := by simpa using ha
      have ha' : (a.1 == k') = false := by rw [haeq]; exact hkk
      simp only [List.map_cons, if_pos ha]
      simp only [lookupMap, List.find?, hkk, ha'] at ih ⊢
      exact ih
    · simp only [List.map_cons, if_neg ha]
      by_cases hp : (a.1 == k') = true
      · simp [lookupMap, List.find?, hp]
      · have hp' : (a.1 == k') = false := by simpa using hp
        simp only [lookupMap, List.find?, hp'] at ih ⊢
        exact ih

theorem lookupMap_append_single_ne (k k' : String) (v : Nat) (h : k' ≠ k) :
    ∀ m : List (String × Nat),
      lookupMap (m ++ [(k, v)]) k' = lookupMap m k' := by
  have hkk : (k == k') = false := beq_eq_false_iff_ne.mpr (fun hx => h hx.symm)
  intro m
  induction m with
  | nil => simp [lookupMap, List.find?, hkk]
  | cons a as ih =>
    by_cases hp : (a.1 == k') = true
    · simp [lookupMap, List.find?, hp]
    · have hp' : (a.1 == k') = false := by simpa using hp
      simp only [List.cons_append, lookupMap, List.find?, hp'] at ih ⊢
      exact ih

theorem lookupMap_upsert_ne (m : List (String × Nat)) (k k' : String) (v : Nat)
    (h : k' ≠ k) : lookupMap (mapUpsert m k v) k' = lookupMap m k' := by
  unfold mapUpsert
  by_cases hany : m.any (fun p => p.1 == k) = true
  · rw [if_pos hany]
    exact lookupMap_map_replace_ne k k' v h m
  · rw [if_neg hany]
    exact lookupMap_append_single_ne k k' v h m

theorem keyCount_map_replace (k k' : String) (v : Nat)
    (m : List (String × Nat)) :
    keyCount (m.map (fun p => if p.1 == k then (k, v) else p)) k' =
      keyCount m k' := by
  induction m with
  | nil => rfl
  | cons a as ih =>
    by_cases ha : (a.1 == k) = true
    · have haeq : a.1 = k := by simpa using ha
      simp only [List.map_cons, if_pos ha, keyCount, List.countP_cons] at ih ⊢
      rw [ih]
      simp [haeq]
    · simp only [List.map_cons, if_neg ha, keyCount, List.countP_cons] at ih ⊢
      rw [ih]

theorem keyCount_any_false (k : String) (m : List (String × Nat))
    (h : m.any (fun p => p.1 == k) = false) : keyCount m k = 0 := by
  rw [keyCount, List.countP_eq_zero]
  intro a ha
  intro hx
  have hh : m.any (fun p => p.1 == k) = true := List.any_eq_true.mpr ⟨a, ha, hx⟩
  rw [h] at hh
  exact absurd hh (by decide)

theorem keyCount_upsert_le (m : List (String × Nat)) (k k' : String) (v : Nat)
    (h : keyCount m k' ≤ 1) : keyCount (mapUpsert m k v) k' ≤ 1 := by
  unfold mapUpsert
  by_cases hany : m.any (fun p => p.1 == k) = true
  · rw [if_pos hany, keyCount_map_replace]
    exact h
  · rw [if_neg hany]
    rw [keyCount, List.countP_append]
    by_cases hk : (k == k') = true
    · have : k = k' := by simpa using hk
      subst this
      have h0 : keyCount m k = 0 := keyCount_any_false k m (Bool.eq_false_iff.mpr hany)
      rw [keyCount] at h0
      simp [h0, List.countP_cons]
    · have hk' : (k == k') = false := by simpa using hk
      rw [keyCount] at h
      simp [List.countP_cons, hk']
      omega

theorem lookup_some_keyCount_pos (m : List (String × Nat)) (k : String) (v : Nat)
    (h : lookupMap m k = some v) : 0 < keyCount m k := by
  rw [lookupMap] at h
  cases hf : m.find? (fun p => p.1 == k) with
  | none => rw [hf] at h; exact absurd h (by simp)
  | some a =>
    have hmem := List.mem_of_find?_eq_some hf
    have hpred := List.find?_some hf
    rw [keyCount]
    exact List.countP_pos_iff.mpr ⟨a, hmem, hpred⟩

/-! ### Lemmas about processBlock and processUsage -/
theorem processBlock_Modules_module (text : List Char) (m : ModuleUsage) (b : Block)
    (h : b.btype = "module") :
    (processBlock text m b).Modules =
      mapUpsert m.Modules (label0 b) (countModule (label0 b) text) := by
  simp [processBlock, h]

theorem processBlock_Modules_ne (text : List Char) (m : ModuleUsage) (b : Block)
    (h : b.btype ≠ "module") : (processBlock text m b).Modules = m.Modules := by
  unfold processBlock
  split <;> simp_all

theorem processBlock_Variables_variable (text : List Char) (m : ModuleUsage) (b : Block)
    (h : b.btype = "variable") :
    (processBlock text m b).Variables =
      mapUpsert m.Variables (label0 b) (countVar (label0 b) text) := by
  simp [processBlock, h]

theorem processBlock_Variables_ne (text : List Char) (m : ModuleUsage) (b : Block)
    (h : b.btype ≠ "variable") : (processBlock text m b).Variables = m.Variables := by
  unfold processBlock
  split <;> simp_all

theorem processBlock_DataBlocks_data (text : List Char) (m : ModuleUsage) (b : Block)
    (h : b.btype = "data") :
    (processBlock text m b).DataBlocks =
      mapUpsert m.DataBlocks (dataKey (label0 b) (label1 b))
        (countData (label0 b) (label1 b) text) := by
  simp [processBlock, h]

theorem processBlock_DataBlocks_ne (text : List Char) (m : ModuleUsage) (b : Block)
    (h : b.btype ≠ "data") : (processBlock text m b).DataBlocks = m.DataBlocks := by
  unfold processBlock
  split <;> simp_all

theorem processBlock_Locals_locals (text : List Char) (m : ModuleUsage) (b : Block)
    (h : b.btype = "locals") :
    (processBlock text m b).Locals =
      b.attrs.foldl (fun acc a => mapUpsert acc a (countLocal a text)) m.Locals := by
  simp [processBlock, h]

theorem processBlock_Locals_ne (text : List Char) (m : ModuleUsage) (b : Block)
    (h : b.btype ≠ "locals") : (processBlock text m b).Locals = m.Locals := by
  unfold processBlock
  split <;> simp_all

theorem foldl_modules_preserved (text : List Char) (name : String) :
    ∀ (bs : List Block) (m : ModuleUsage),
      lookupMap m.Modules name = some (countModule name text) →
      lookupMap (bs.foldl (processBlock text) m).Modules name =
        some (countModule name text) := by
  intro bs
  induction bs with
  | nil => intro m h; exact h
  | cons b bs ih =>
    intro m h
    rw [List.foldl_cons]
    apply ih
    by_cases hb : b.btype = "module"
    · rw [processBlock_Modules_module text m b hb]
      by_cases hk : label0 b = name
      · rw [hk]
        exact lookupMap_upsert_self _ _ _
      · rw [lookupMap_upsert_ne _ _ _ _ (fun he => hk he.symm)]
        exact h
    · rw [processBlock_Modules_ne text m b hb]
      exact h

theorem modules_established (text : List Char) (name : String) :
    ∀ (bs : List Block) (m : ModuleUsage) (b : Block), b ∈ bs →
      b.btype = "module" → label0 b = name →
      lookupMap (bs.foldl (processBlock text) m).Modules name =
        some (countModule name text) := by
  intro bs
  induction bs with
  | nil => intro m b hb; simp at hb
  | cons a bs ih =>
    intro m b hb ht hl
    rw [List.foldl_cons]
    rcases List.mem_cons.mp hb with hcase | hcase
    · subst hcase
      apply foldl_modules_preserved
      rw [processBlock_Modules_module text m b ht, hl]
      exact lookupMap_upsert_self _ _ _
    · exact ih (processBlock text m a) b hcase ht hl

theorem foldl_variables_preserved (text : List Char) (name : String) :
    ∀ (bs : List Block) (m : ModuleUsage),
      lookupMap m.Variables name = some (countVar name text) →
      lookupMap (bs.foldl (processBlock text) m).Variables name =
        some (countVar name text) := by
  intro bs
  induction bs with
  | nil => intro m h; exact h
  | cons b bs ih =>
    intro m h
    rw [List.foldl_cons]
    apply ih
    by_cases hb : b.btype = "variable"
    · rw [processBlock_Variables_variable text m b hb]
      by_cases hk : label0 b = name
      · rw [hk]
        exact lookupMap_upsert_self _ _ _
      · rw [lookupMap_upsert_ne _ _ _ _ (fun he => hk he.symm)]
        exact h
    · rw [processBlock_Variables_ne text m b hb]
      exact h

theorem variables_established (text : List Char) (name : String) :
    ∀ (bs : List Block) (m : ModuleUsage) (b : Block), b ∈ bs →
      b.btype = "variable" → label0 b = name →
      lookupMap (bs.foldl (processBlock text) m).Variables name =
        some (countVar name text) := by
  intro bs
  induction bs with
  | nil => intro m b hb; simp at hb
  | cons a bs ih =>
    intro m b hb ht hl
    rw [List.foldl_cons]
    rcases List.mem_cons.mp hb with hcase | hcase
    · subst hcase
      apply foldl_variables_preserved
      rw [processBlock_Variables_variable text m b ht, hl]
      exact lookupMap_upsert_self _ _ _
    · exact ih (processBlock text m a) b hcase ht hl

theorem foldl_datablocks_preserved (text : List Char) (key : String) :
    ∀ (bs : List Block) (m : ModuleUsage),
      lookupMap m.DataBlocks key = some (countDataKey key text) →
      lookupMap (bs.foldl (processBlock text) m).DataBlocks key =
        some (countDataKey key text) := by
  intro bs
  induction bs with
  | nil => intro m h; exact h
  | cons b bs ih =>
    intro m h
    rw [List.foldl_cons]
    apply ih
    by_cases hb : b.btype = "data"
    · rw [processBlock_DataBlocks_data text m b hb]
      by_cases hk : dataKey (label0 b) (label1 b) = key
      · rw [countData, hk]
        exact lookupMap_upsert_self _ _ _
      · rw [lookupMap_upsert_ne _ _ _ _ (fun he => hk he.symm)]
        exact h
    · rw [processBlock_DataBlocks_ne text m b hb]
      exact h

theorem datablocks_established (text : List Char) (key : String) :
    ∀ (bs : List Block) (m : ModuleUsage) (b : Block), b ∈ bs →
      b.btype = "data" → dataKey (label0 b) (label1 b) = key →
      lookupMap (bs.foldl (processBlock text) m).DataBlocks key =
        some (countDataKey key text) := by
  intro bs
  induction bs with
  | nil => intro m b hb; simp at hb
  | cons a bs ih =>
    intro m b hb ht hl
    rw [List.foldl_cons]
    rcases List.mem_cons.mp hb with hcase | hcase
    · subst hcase
      apply foldl_datablocks_preserved
      rw [processBlock_DataBlocks_data text m b ht, countData, hl]
      exact lookupMap_upsert_self _ _ _
    · exact ih (processBlock text m a) b hcase ht hl

theorem locals_inner_preserved (text : List Char) (a0 : String) :
    ∀ (attrs : List String) (acc : List (String × Nat)),
      lookupMap acc a0 = some (countLocal a0 text) →
      lookupMap (attrs.foldl
          (fun acc a => mapUpsert acc a (countLocal a text)) acc) a0 =
        some (countLocal a0 text) := by
  intro attrs
  induction attrs with
  | nil => intro acc h; exact h
  | cons a attrs ih =>
    intro acc h
    rw [List.foldl_cons]
    apply ih
    by_cases hk : a = a0
    · rw [hk]
      exact lookupMap_upsert_self _ _ _
    · rw [lookupMap_upsert_ne _ _ _ _ (fun he => hk he.symm)]
      exact h

theorem locals_inner_established (text : List Char) (a0 : String) :
    ∀ (attrs : List String) (acc : List (String × Nat)), a0 ∈ attrs →
      lookupMap (attrs.foldl
          (fun acc a => mapUpsert acc a (countLocal a text)) acc) a0 =
        some (countLocal a0 text) := by
  intro attrs
  induction attrs with
  | nil => intro acc h; simp at h
  | cons a attrs ih =>
    intro acc hmem
    rw [List.foldl_cons]
    rcases List.mem_cons.mp hmem with hcase | hcase
    · subst hcase
      apply locals_inner_preserved
      exact lookupMap_upsert_self _ _ _
    · exact ih _ hcase

theorem foldl_locals_preserved (text : List Char) (a0 : String) :
    ∀ (bs : List Block) (m : ModuleUsage),
      lookupMap m.Locals a0 = some (countLocal a0 text) →
      lookupMap (bs.foldl (processBlock text) m).Locals a0 =
        some (countLocal a0 text) := by
  intro bs
  induction bs with
  | nil => intro m h; exact h
  | cons b bs ih =>
    intro m h
    rw [List.foldl_cons]
    apply ih
    by_cases hb : b.btype = "locals"
    · rw [processBlock_Locals_locals text m b hb]
      exact locals_inner_preserved text a0 b.attrs m.Locals h
    · rw [processBlock_Locals_ne text m b hb]
      exact h

theorem locals_established (text : List Char) (a0 : String) :
    ∀ (bs : List Block) (m : ModuleUsage) (b : Block), b ∈ bs →
      b.btype = "locals" → a0 ∈ b.attrs →
      lookupMap (bs.foldl (processBlock text) m).Locals a0 =
        some (countLocal a0 text) := by
  intro bs
  induction bs with
  | nil => intro m b hb; simp at hb
  | cons a bs ih =>
    intro m b hb ht hmem
    rw [List.foldl_cons]
    rcases List.mem_cons.mp hb with hcase | hcase
    · subst hcase
      apply foldl_locals_preserved
      rw [processBlock_Locals_locals text m b ht]
      exact locals_inner_established text a0 b.attrs m.Locals hmem
    · exact ih (processBlock text m a) b hcase ht hmem

theorem keyCount_modules_foldl_le (text : List Char) (k : String) :
    ∀ (bs : List Block) (m : ModuleUsage), keyCount m.Modules k ≤ 1 →
      keyCount (bs.foldl (processBlock text) m).Modules k ≤ 1 := by
  intro bs
  induction bs with
  | nil => intro m h; exact h
  | cons b bs ih =>
    intro m h
    rw [List.foldl_cons]
    apply ih
    by_cases hb : b.btype = "module"
    · rw [processBlock_Modules_module text m b hb]
      exact keyCount_upsert_le _ _ _ _ h
    · rw [processBlock_Modules_ne text m b hb]
      exact h

/-! ### The claims -/
/-- A small module text whose data block labels are a and b, followed by
a line that agrees with the key data.a.b everywhere except at the two
dots. -/
def dataText : List Char := "data \"a\" \"b\" \x7b\x7d\ndataXaXb\n".toList

/-- C1, counterexample: on dataText the stored count for data.a.b is 1,
although the key occurs 0 times as an exact literal substring:
the position dataXaXb, which differs from the key exactly at the dot
characters, is counted, so the claim's equation fails at this input. -/
theorem c1_counterexample :
    lookupMap (processUsage [⟨"data", ["a", "b"], []⟩] dataText).DataBlocks
        "data.a.b" = some 1 ∧
    (matchPositions (litMatch ("data.a.b".toList)) dataText).length = 0 ∧
    lookupMap (processUsage [⟨"data", ["a", "b"], []⟩] dataText).DataBlocks
        "data.a.b" ≠
      some (matchPositions (litMatch ("data.a.b".toList)) dataText).length := by
  exact ⟨by decide, by decide, by decide⟩

/-- C1, amended: for every data block with labels type and name (ordinary
identifier strings), the Symbol Extractor stores under key
data.type.name the number of leftmost non-overlapping regex matches of
that key, in which each dot matches any single non-newline character;
when those matches do not overlap, this is the number of positions at
which the key matches with dots as wildcards. -/
theorem c1_data_key_regex (bs : List Block) (text : List Char)
    (dtype name : String) (b : Block) (hb : b ∈ bs) (ht : b.btype = "data")
    (h0 : label0 b = dtype) (h1 : label1 b = name)
    (_hw1 : wordStr dtype = true) (_hw2 : wordStr name = true)
    (hsep : (matchPositions (dotMatch (dataKey dtype name).toList) text).Pairwise
      (fun i j => i + (dataKey dtype name).toList.length ≤ j)) :
    lookupMap (processUsage bs text).DataBlocks (dataKey dtype name) =
      some (matchPositions (dotMatch (dataKey dtype name).toList) text).length := by
  unfold processUsage
  have hx := datablocks_established text (dataKey dtype name) bs (emptyUsage "") b
    hb ht (by rw [h0, h1])
  rw [hx, countDataKey]
  congr 1
  exact countFixed_eq_positions _ _ text.length text le_rfl hsep

/-- C1, witness: on dataText the single dot-wildcard match position is
counted, giving the stored count 1. -/
theorem c1_witness :
    lookupMap (processUsage [⟨"data", ["a", "b"], []⟩] dataText).DataBlocks
      (dataKey "a" "b") = some 1 := by
  have h := c1_data_key_regex [⟨"data", ["a", "b"], []⟩] dataText "a" "b"
    ⟨"data", ["a", "b"], []⟩ (by decide) rfl rfl rfl (by decide) (by decide)
    (by decide)
  rw [h]
  decide


/-- A module text declaring a variable named var whose default value
contains three overlapping occurrences of the literal var.var followed by
a non-word character. -/
def varOverlapText : List Char :=
  "variable \"var\" \x7b\n  default = \"var.var.var.var.\"\n\x7d\n".toList

/-- C2, counterexample: for the variable named var and varOverlapText,
the literal var.var occurs 3 times immediately followed by a non-word
character, but the occurrences overlap and the regex scan counts the
leftmost non-overlapping ones, storing 2; the claim's equation fails at
this input. -/
theorem c2_counterexample :
    lookupMap (processUsage [⟨"variable", ["var"], []⟩] varOverlapText).Variables
        "var" = some 2 ∧
    (matchPositions (boundedMatch (varPat "var")) varOverlapText).length = 3 ∧
    lookupMap (processUsage [⟨"variable", ["var"], []⟩] varOverlapText).Variables
        "var" ≠
      some (matchPositions (boundedMatch (varPat "var")) varOverlapText).length := by
  exact ⟨by decide, by decide, by decide⟩

/-- C2, amended: for every variable declaration named name (an ordinary
identifier string), the stored count is the number of leftmost
non-overlapping occurrences of the literal var.name immediately followed
by a non-word character; whenever those occurrences are pairwise
non-overlapping — which holds in particular in the region / region_id
scenario — it equals the plain number of such occurrences. -/
theorem c2_variable_count (bs : List Block) (text : List Char) (name : String)
    (b : Block) (hb : b ∈ bs) (ht : b.btype = "variable")
    (hl : label0 b = name) (_hw : wordStr name = true)
    (hsep : (matchPositions (boundedMatch (varPat name)) text).Pairwise
      (fun i j => i + ((varPat name).length + 1) ≤ j)) :
    lookupMap (processUsage bs text).Variables name =
      some (matchPositions (boundedMatch (varPat name)) text).length := by
  unfold processUsage
  rw [variables_established text name bs (emptyUsage "") b hb ht hl, countVar]
  congr 1
  exact countFixed_eq_positions _ _ text.length text le_rfl hsep

/-- A module text with variable region referenced once as var.region and
once inside var.region_id. -/
def regionText : List Char :=
  "variable \"region\" \x7b\x7d\nvariable \"region_id\" \x7b\x7d\nr = var.region\nq = var.region_id\n".toList

/-- C2, witness: the boundary discipline example of the claim — region
is stored with count 1 on regionText, the occurrence inside
var.region_id not being counted. -/
theorem c2_witness :
    lookupMap (processUsage [⟨"variable", ["region"], []⟩,
        ⟨"variable", ["region_id"], []⟩] regionText).Variables "region" =
      some 1 := by
  have h := c2_variable_count
    [⟨"variable", ["region"], []⟩, ⟨"variable", ["region_id"], []⟩] regionText
    "region" ⟨"variable", ["region"], []⟩ (by decide) rfl rfl (by decide)
    (by decide)
  rw [h]
  decide

/-- A module text declaring a module named module and containing the
expression module.module.module.id with two overlapping occurrences of
the literal module.module. -/
def moduleOverlapText : List Char :=
  "module \"module\" \x7b\n  source = \"./m\"\n\x7d\nx = module.module.module.id\n".toList

/-- C4, counterexample: for the module named module and
moduleOverlapText, the literal module.module occurs 2 times (the
occurrences overlap inside module.module.module), but the regex scan
counts leftmost non-overlapping matches and stores 1; the claim's
equation fails at this input. -/
theorem c4_counterexample :
    lookupMap (processUsage [⟨"module", ["module"], []⟩] moduleOverlapText).Modules
        "module" = some 1 ∧
    (matchPositions (litMatch (modulePat "module")) moduleOverlapText).length = 2 ∧
    lookupMap (processUsage [⟨"module", ["module"], []⟩] moduleOverlapText).Modules
        "module" ≠
      some (matchPositions (litMatch (modulePat "module")) moduleOverlapText).length := by
  exact ⟨by decide, by decide, by decide⟩

/-- C4, amended: for every module block declaration named name (an
ordinary identifier string), the stored count is the number of leftmost
non-overlapping occurrences of the literal module.name, with no trailing
boundary requirement; whenever those occurrences are pairwise
non-overlapping it equals the plain number of occurrences — so for a
module named foo, occurrences of module.foobar still contribute to foo's
count (see the witness). -/
theorem c4_module_count (bs : List Block) (text : List Char) (name : String)
    (b : Block) (hb : b ∈ bs) (ht : b.btype = "module")
    (hl : label0 b = name) (_hw : wordStr name = true)
    (hsep : (matchPositions (litMatch (modulePat name)) text).Pairwise
      (fun i j => i + (modulePat name).length ≤ j)) :
    lookupMap (processUsage bs text).Modules name =
      some (matchPositions (litMatch (modulePat name)) text).length := by
  unfold processUsage
  rw [modules_established text name bs (emptyUsage "") b hb ht hl, countModule]
  congr 1
  exact countFixed_eq_positions _ _ text.length text le_rfl hsep

/-- A module text declaring modules foo and foobar whose only reference
expression is module.foobar.id. -/
def fooText : List Char :=
  "module \"foo\" \x7b\x7d\nmodule \"foobar\" \x7b\x7d\na = module.foobar.id\n".toList

/-- C4, witness: on fooText, where the only reference is module.foobar,
the module foo is stored with count 1 — the occurrence inside
module.foobar is counted for foo because the pattern has no trailing
boundary. -/
theorem c4_witness :
    lookupMap (processUsage [⟨"module", ["foo"], []⟩,
        ⟨"module", ["foobar"], []⟩] fooText).Modules "foo" = some 1 := by
  have h := c4_module_count
    [⟨"module", ["foo"], []⟩, ⟨"module", ["foobar"], []⟩] fooText "foo"
    ⟨"module", ["foo"], []⟩ (by decide) rfl rfl (by decide) (by decide)
  rw [h]
  decide


/-- Membership in a filtered usage mapping: exactly the zero-count
entries survive filterUnusedOnly. -/
theorem mem_filterUnusedOnly (items : List (String × Nat)) (k : String) (v : Nat) :
    (k, v) ∈ filterUnusedOnly items ↔ (k, v) ∈ items ∧ v = 0 := by
  rw [filterUnusedOnly, List.mem_filter]
  constructor
  · rintro ⟨hm, hv⟩
    refine ⟨hm, ?_⟩
    by_cases h0 : v > 0
    · simp [h0] at hv
    · omega
  · rintro ⟨hm, hv⟩
    subst hv
    exact ⟨hm, by simp⟩

/-- C3: the UnusedOnly filter keeps exactly the zero-count entries of
each of the report's mappings and removes exactly the non-zero ones, and
the filtering is destructive: after a Display call with unusedOnly (or a
DisplayUnusedSimple call), the report instance itself holds only the
zero-count entries of every mapping that was filtered. -/
theorem c3_filter_unused_narrows (m : ModuleUsage) (dt : DisplayType) (u : Bool)
    (k : String) (v : Nat) :
    ((k, v) ∈ filterUnusedOnly m.Variables ↔ (k, v) ∈ m.Variables ∧ v = 0) ∧
    ((k, v) ∈ filterUnusedOnly m.Locals ↔ (k, v) ∈ m.Locals ∧ v = 0) ∧
    ((k, v) ∈ filterUnusedOnly m.Modules ↔ (k, v) ∈ m.Modules ∧ v = 0) ∧
    (Display m Locals true).post.Locals = filterUnusedOnly m.Locals ∧
    (Display m Variables true).post.Variables = filterUnusedOnly m.Variables ∧
    (Display m All true).post.Locals = filterUnusedOnly m.Locals ∧
    (Display m All true).post.Variables = filterUnusedOnly m.Variables ∧
    (DisplayUnusedSimple m dt u).Variables = filterUnusedOnly m.Variables ∧
    (DisplayUnusedSimple m dt u).Locals = filterUnusedOnly m.Locals ∧
    (DisplayUnusedSimple m dt u).Modules = filterUnusedOnly m.Modules := by
  refine ⟨mem_filterUnusedOnly _ _ _, mem_filterUnusedOnly _ _ _,
    mem_filterUnusedOnly _ _ _, rfl, rfl, rfl, rfl, rfl, rfl, rfl⟩

/-- C6: a Display request with an axis outside all, variables, locals
returns the invalid-argument error and leaves the report untouched — the
switch's default branch fires before any filtering. -/
theorem c6_invalid_display (m : ModuleUsage) (dType : DisplayType) (u : Bool)
    (h1 : dType ≠ All) (h2 : dType ≠ Variables) (h3 : dType ≠ Locals) :
    (Display m dType u).err = some (dType ++ " is an invalid display Type") ∧
    (Display m dType u).post = m := by
  unfold Display
  rw [if_neg h3, if_neg h2, if_neg h1]
  exact ⟨rfl, rfl⟩

/-- C6, witness: the unrecognized axis modules errors out on the empty
report without changing it. -/
theorem c6_witness :
    (Display (emptyUsage "p") "modules" true).err =
      some ("modules" ++ " is an invalid display Type") ∧
    (Display (emptyUsage "p") "modules" true).post = emptyUsage "p" :=
  c6_invalid_display (emptyUsage "p") "modules" true (by decide) (by decide)
    (by decide)

/-- C5: module-source decomposition — the versioned git address splits
into path and version, a plain local path comes back whole with an empty
version, and any token shape other than a single quoted literal yields
two empty strings. -/
theorem c5_parse_module_source :
    parseModuleSource [⟨TokenType.oQuote, "\""⟩,
        ⟨TokenType.quotedLit, "git::https://example.com/mod.git?ref=v1.2.3"⟩,
        ⟨TokenType.cQuote, "\""⟩] =
      ("git::https://example.com/mod.git", "1.2.3") ∧
    parseModuleSource [⟨TokenType.oQuote, "\""⟩,
        ⟨TokenType.quotedLit, "./local/path"⟩, ⟨TokenType.cQuote, "\""⟩] =
      ("./local/path", "") ∧
    ∀ tokens : List HclToken, isQuotedLitShape tokens = false →
      parseModuleSource tokens = ("", "") := by
  refine ⟨by decide, by decide, ?_⟩
  intro tokens h
  cases tokens with
  | nil => rfl
  | cons t0 r0 =>
    cases r0 with
    | nil => rfl
    | cons t1 r1 =>
      cases r1 with
      | nil => rfl
      | cons t2 r2 =>
        cases r2 with
        | cons t3 r3 => rfl
        | nil =>
          show (if t0.ttype = TokenType.oQuote ∧ t1.ttype = TokenType.quotedLit ∧
              t2.ttype = TokenType.cQuote then _ else ((("" : String), ("" : String)))) = ("", "")
          rw [if_neg]
          rintro ⟨ha, hb, hc⟩
          simp [isQuotedLitShape, ha, hb, hc] at h

/-- C5, witness: a single non-quote token is not a quoted literal and
yields two empty strings. -/
theorem c5_witness : parseModuleSource [⟨TokenType.other, "x"⟩] = ("", "") :=
  c5_parse_module_source.2.2 [⟨TokenType.other, "x"⟩] (by decide)

/-- The loader's fold, started from an arbitrary prefix already built. -/
theorem LoadTfModule_foldl (files : List (String × List Char)) :
    ∀ acc : List Char,
      files.foldl (fun out f => if isTf f then out ++ '\n' :: f.2 else out) acc =
        acc ++ ((files.filter isTf).map (fun f => '\n' :: f.2)).flatten := by
  induction files with
  | nil => intro acc; simp
  | cons f fs ih =>
    intro acc
    rw [List.foldl_cons]
    by_cases hf : isTf f = true
    · rw [ih]
      simp [List.filter_cons, hf, List.append_assoc]
    · rw [Bool.not_eq_true] at hf
      rw [ih]
      simp [List.filter_cons, hf]

/-- C7, counterexample: a directory with the single file a.tf with
content x loads as a newline followed by x — the loader writes a newline
before every file, so the result has a leading separator, where the claim
prescribes the bare concatenation with separators only between
consecutive files. -/
theorem c7_counterexample :
    LoadTfModule [("a.tf", ['x'])] = ['\n', 'x'] ∧
    loadTfModuleClaimed [("a.tf", ['x'])] = ['x'] ∧
    LoadTfModule [("a.tf", ['x'])] ≠ loadTfModuleClaimed [("a.tf", ['x'])] := by
  exact ⟨by decide, by decide, by decide⟩

/-- C7, amended: the module loader reads the configuration (.tf) files of
the directory in name order and returns, for each of them, one newline
followed by that file's contents, concatenated — a separator before every
file (hence a leading newline when any file exists) and none after the
last; a directory whose listing has no .tf file yields empty content. -/
theorem c7_loader_prepends_newline (files : List (String × List Char)) :
    LoadTfModule files =
      ((files.filter isTf).map (fun f => '\n' :: f.2)).flatten ∧
    LoadTfModule (files.filter (fun f => !(isTf f))) = [] := by
  constructor
  · rw [LoadTfModule, LoadTfModule_foldl]
    simp
  · rw [LoadTfModule, LoadTfModule_foldl]
    simp only [List.nil_append]
    rw [List.filter_filter]
    have : ∀ f : String × List Char, (isTf f && !(isTf f)) = false := by
      intro f
      cases isTf f <;> rfl
    simp [this]

/-- A module text declaring the module test twice and referencing
module.test once. -/
def dupModuleText : List Char :=
  "module \"test\" \x7b\n\x7d\nmodule \"test\" \x7b\n\x7d\na = module.test.x\n".toList

/-- C8: whenever some module block is named test — in particular when two
blocks are — the finished report has exactly one entry for the key test
in its modules mapping, and its value is the count obtained by scanning
the full text, the value the later declaration's (identical) scan leaves
behind; no error path exists. -/
theorem c8_duplicate_module_names (bs : List Block) (text : List Char)
    (b : Block) (hb : b ∈ bs) (ht : b.btype = "module")
    (hl : label0 b = "test") :
    keyCount (processUsage bs text).Modules "test" = 1 ∧
    lookupMap (processUsage bs text).Modules "test" =
      some (countModule "test" text) := by
  unfold processUsage
  have hlk := modules_established text "test" bs (emptyUsage "") b hb ht hl
  refine ⟨?_, hlk⟩
  have hle := keyCount_modules_foldl_le text "test" bs (emptyUsage "")
    (by simp [emptyUsage, keyCount])
  have hpos := lookup_some_keyCount_pos _ _ _ hlk
  omega

/-- C8, witness: with the module test declared twice in dupModuleText the
report holds a single test entry whose count is 1. -/
theorem c8_witness :
    keyCount (processUsage [⟨"module", ["test"], []⟩, ⟨"module", ["test"], []⟩]
        dupModuleText).Modules "test" = 1 ∧
    lookupMap (processUsage [⟨"module", ["test"], []⟩, ⟨"module", ["test"], []⟩]
        dupModuleText).Modules "test" = some 1 := by
  have h := c8_duplicate_module_names
    [⟨"module", ["test"], []⟩, ⟨"module", ["test"], []⟩] dupModuleText
    ⟨"module", ["test"], []⟩ (by decide) rfl rfl
  refine ⟨h.1, ?_⟩
  rw [h.2]
  decide

/-- A module text whose locals block gives tags a value referencing
local.other_tag and also declares other_tag. -/
def localsText : List Char :=
  "locals \x7b\n  tags = local.other_tag\n  other_tag = \"x\"\n\x7d\n".toList

/-- C9: the reference counter scans the whole concatenated text with no
notion of excluding a declaration's own block: on localsText the single
occurrence of local.other_tag — which sits inside the locals block that
declares other_tag — is counted, so other_tag is stored with count 1. -/
theorem c9_local_self_reference :
    lookupMap (processUsage [⟨"locals", [], ["tags", "other_tag"]⟩]
        localsText).Locals "other_tag" = some 1 ∧
    (matchPositions (boundedMatch (localPat "other_tag")) localsText).length = 1 ∧
    lookupMap (processUsage [⟨"locals", [], ["tags", "other_tag"]⟩]
        localsText).Locals "tags" = some 0 := by
  exact ⟨by decide, by decide, by decide⟩

/-- A bounded match needs room for the literal and one boundary
character. -/
theorem boundedMatch_length (lit s : List Char) (h : boundedMatch lit s = true) :
    lit.length + 1 ≤ s.length := by
  rw [boundedMatch, Bool.and_eq_true] at h
  obtain ⟨h1, h2⟩ := h
  cases hd : s.drop lit.length with
  | nil => rw [hd] at h2; simp at h2
  | cons c cs =>
    have hlen : (s.drop lit.length).length = s.length - lit.length :=
      List.length_drop _ _
    rw [hd] at hlen
    simp at hlen
    omega

/-- The greedy scan finds nothing when no suffix of the text matches. -/
theorem countFixed_eq_zero (p : List Char → Bool) (L : Nat) :
    ∀ t : List Char, (∀ i, p (t.drop i) = false) → countFixed p L t = 0 := by
  have haux : ∀ (t : List Char), (∀ i, p (t.drop i) = false) →
      ∀ k, countFixedAux p L k t = 0 := by
    intro t
    induction t with
    | nil => intro _ k; cases k <;> rfl
    | cons c rest ih =>
      intro h k
      have hrest : ∀ i, p (rest.drop i) = false := by
        intro i
        have := h (i + 1)
        simpa using this
      cases k with
      | zero =>
        have h0 : p (c :: rest) = false := by simpa using h 0
        show countFixedAux p L 0 (c :: rest) = 0
        rw [countFixedAux, if_neg (by simp [h0])]
        exact ih hrest 0
      | succ k =>
        show countFixedAux p L k rest = 0
        exact ih hrest k
  intro t h
  exact haux t h 0

/-- A module text that ends in the characters var.x, right after a
declaration of the variable x. -/
def endText : List Char := "variable \"x\" \x7b\x7d\ny = var.x".toList

/-- C10: the boundary requirement makes a reference at the very end of
the text invisible — in general the pattern of a variable name finds
nothing in a text that consists of var.name alone, and on endText, which
ends in var.x and contains that one occurrence of the literal var.x, the
variable x is stored with count 0. -/
theorem c10_end_boundary :
    (∀ name : String, countVar name (varPat name) = 0) ∧
    lookupMap (processUsage [⟨"variable", ["x"], []⟩] endText).Variables "x" =
      some 0 ∧
    (matchPositions (litMatch ("var.x".toList)) endText).length = 1 ∧
    List.isSuffixOf ("var.x".toList) endText = true := by
  refine ⟨?_, by decide, by decide, by decide⟩
  intro name
  rw [countVar]
  apply countFixed_eq_zero
  intro i
  by_cases h : boundedMatch (varPat name) ((varPat name).drop i) = true
  · exfalso
    have hl := boundedMatch_length _ _ h
    have : ((varPat name).drop i).length = (varPat name).length - i :=
      List.length_drop _ _
    omega
  · simpa using h
end TfCleaner
